import Mathlib

/-!
Shallow embedding of `toml_to_json.py`, a converter of TOML-formatted
VSCode snippets into the JSON format required by the editor.  Texts are
modelled as lists of characters; a parsed TOML table is an ordered
association list from attribute names to values, mirroring a Python
`dict` (insertion order preserved, duplicate keys impossible in a real
dict but the operations are total on arbitrary lists).  File access is
modelled as a partial map from paths to file contents.
-/

namespace TomlSnippet

/-- A text, modelled as its list of characters. -/
abbrev Text := List Char

/-- A TOML / JSON attribute value, as it appears in a snippet record. -/
inductive Value where
  | str (s : Text)
  | bool (b : Bool)
  | int (n : Int)
  | intList (ns : List Int)
  | strList (ls : List Text)
deriving DecidableEq

/-- A snippet record: the ordered attribute map of one parsed TOML table. -/
abbrev Record := List (String × Value)

/-- A body, as an ordered list of lines. -/
abbrev Lines := List Text

/-- The file system: a partial map from path to file content. -/
abbrev FileSys := Text → Option Text

/-- Key membership, as in Python `k in data`. -/
def hasKey : Record → String → Bool
  | [], _ => false
  | (k0, _) :: rest, k => if k0 = k then true else hasKey rest k

/-- Lookup, as in Python `data[k]` (the first binding wins; in a real
dict keys are unique). -/
def getVal : Record → String → Option Value
  | [], _ => none
  | (k0, v) :: rest, k => if k0 = k then some v else getVal rest k

/-- Key removal, as performed by Python `data.pop(k)`. -/
def popKey : Record → String → Record
  | [], _ => []
  | (k0, v) :: rest, k =>
    if k0 = k then popKey rest k else (k0, v) :: popKey rest k

/-- Assignment `data[k] = v`: an existing key is updated in place, a new
key is appended at the end (Python dict insertion-order semantics). -/
def setKey (d : Record) (k : String) (v : Value) : Record :=
  if hasKey d k then d.map (fun p => if p.1 = k then (k, v) else p)
  else d ++ [(k, v)]

/-- Is `c` one of the line-boundary characters recognized by Python
`str.splitlines` (LF, CR, VT, FF, FS, GS, RS, NEL, LS, PS)? -/
def isLineBoundary (c : Char) : Bool :=
  c.toNat == 10 || c.toNat == 13 || c.toNat == 11 || c.toNat == 12 ||
  c.toNat == 28 || c.toNat == 29 || c.toNat == 30 || c.toNat == 133 ||
  c.toNat == 8232 || c.toNat == 8233

/-- Python `text.splitlines()`: split at every line boundary, a CRLF
pair counting as a single boundary, and with no trailing empty line
produced by a final boundary. -/
def splitlines : Text → Lines
  | [] => []
  | '\r' :: '\n' :: cs => [] :: splitlines cs
  | c :: cs =>
    if isLineBoundary c then [] :: splitlines cs
    else
      match splitlines cs with
      | [] => [[c]]
      | l :: ls => (c :: l) :: ls

/-- Python `text.split` at LF, keeping empty pieces, so that a trailing
LF yields a trailing empty line (line 58 of the source). -/
def splitNl : Text → Lines
  | [] => [[]]
  | c :: cs =>
    if c = '\n' then [] :: splitNl cs
    else
      match splitNl cs with
      | [] => [[c]]
      | l :: ls => (c :: l) :: ls

/-- Failure kinds of body resolution: `configError` is the spec's
`ConfigError` (a failed `assert` on `range`), `sourceReadError` its
`SourceReadError` (the `open` of a `source` file failing), `keyError`
the Python `KeyError` on `data['body']` when no body is given, and
`typeError` an attribute value of an unexpected type. -/
inductive Err where
  | configError
  | sourceReadError
  | keyError
  | typeError
deriving DecidableEq

/-- Body acquisition (`process_body_data`, lines 53-58): if `source` is
present it is popped and the body is the referenced file's content split
with `splitlines`; otherwise the body is `data['body']` split at LF. -/
def acquire_body (fs : FileSys) (data : Record) : Except Err (Record × Lines) :=
  if hasKey data "source" then
    match getVal data "source" with
    | some (Value.str path) =>
      match fs path with
      | some content => .ok (popKey data "source", splitlines content)
      | none => .error .sourceReadError
    | _ => .error .typeError
  else
    match getVal data "body" with
    | some (Value.str text) => .ok (data, splitNl text)
    | some _ => .error .typeError
    | none => .error .keyError

/-- Range cropping (`process_body_data`, lines 59-64): `range` is popped
and checked by the three asserts (two elements, `start <= end`,
`start >= 1`), then the body is sliced as `body[start-1:end]`
(zero-based half-open, silently truncated at the end of the body). -/
def apply_range (data : Record) (body : Lines) : Except Err (Record × Lines) :=
  if hasKey data "range" then
    match getVal data "range" with
    | some (Value.intList r) =>
      match r with
      | [s, e] =>
        if s ≤ e then
          if 1 ≤ s then
            .ok (popKey data "range",
              (body.drop (s - 1).toNat).take (e - s + 1).toNat)
          else .error .configError
        else .error .configError
      | _ => .error .configError
    | _ => .error .typeError
  else .ok (data, body)

/-- Leading-blank trimming (`process_body_data`, lines 65-67): the flag
is popped with default `False` and acts only when its value is the
boolean `True`. -/
def apply_trim_leading (data : Record) (body : Lines) : Record × Lines :=
  (popKey data "trim_leading_blank_lines",
   if getVal data "trim_leading_blank_lines" = some (Value.bool true) then
     body.dropWhile (fun l => l.isEmpty)
   else body)

/-- Trailing-blank trimming (`process_body_data`, lines 68-70): the flag
is popped with default `False` and, when its value is the boolean
`True`, empty lines are dropped from the end. -/
def apply_trim_trailing (data : Record) (body : Lines) : Record × Lines :=
  (popKey data "trim_trailing_blank_lines",
   if getVal data "trim_trailing_blank_lines" = some (Value.bool true) then
     (body.reverse.dropWhile (fun l => l.isEmpty)).reverse
   else body)

/-- `process_body_data` (lines 40-73): acquire the body, crop it to
`range`, apply the two trims, and store the line list back under
`body`. -/
def process_body_data (fs : FileSys) (data : Record) : Except Err Record :=
  match acquire_body fs data with
  | .error e => .error e
  | .ok (data, body) =>
    match apply_range data body with
    | .error e => .error e
    | .ok (data, body) =>
      let (data, body) := apply_trim_leading data body
      let (data, body) := apply_trim_trailing data body
      .ok (setKey data "body" (Value.strList body))

/-- The dict comprehension of `convert_toml_string` (lines 85-87): every
record of the parsed collection is processed in declaration order.  TOML
parsing and JSON serialization are external library primitives. -/
def convert_records (fs : FileSys) :
    List (String × Record) → Except Err (List (String × Record))
  | [] => .ok []
  | (k, v) :: rest =>
    match process_body_data fs v with
    | .error e => .error e
    | .ok v' =>
      match convert_records fs rest with
      | .error e => .error e
      | .ok rest' => .ok ((k, v') :: rest')

/-- Modelled from the spec: the extended-format TOML parser is an
external library primitive, not part of this repository; per the spec it
yields an ordered mapping in declaration order in which a duplicate
snippet name overwrites the earlier entry.  `insertDecl` inserts one
declaration into the collection built so far. -/
def insertDecl (coll : List (String × Record)) (k : String) (v : Record) :
    List (String × Record) :=
  if coll.any (fun p => decide (p.1 = k)) then
    coll.map (fun p => if p.1 = k then (k, v) else p)
  else coll ++ [(k, v)]

/-- Modelled from the spec: parsing a sequence of snippet declarations
into the ordered snippet collection, one `insertDecl` per declaration. -/
def parseDecls (decls : List (String × Record)) : List (String × Record) :=
  decls.foldl (fun c kv => insertDecl c kv.1 kv.2) []

/-- Failure kind of output delivery: the spec's `DestinationExistsError`
(the `OSError` raised by `output_result`). -/
inductive OutErr where
  | destinationExists
deriving DecidableEq

/-- State after output delivery: the file system, the texts printed to
standard output, and the error, if any. -/
structure OutState where
  fsys : FileSys
  stdout : List Text
  err : Option OutErr

/-- `output_result` (lines 92-115): print to stdout (with a final
newline) when no path is given; fail without writing when the
destination exists and `overwrite` is false; otherwise write the whole
text to the destination, creating or truncating it. -/
def output_result (fsys : FileSys) (result_json : Text)
    (json_file_path : Option Text) (overwrite : Bool) : OutState :=
  match json_file_path with
  | none => ⟨fsys, [result_json ++ ['\n']], none⟩
  | some p =>
    if (fsys p).isSome ∧ overwrite = false then
      ⟨fsys, [], some OutErr.destinationExists⟩
    else
      ⟨fun q => if q = p then some result_json else fsys q, [], none⟩


/-! ### Basic lemmas about the record operations -/

theorem getVal_some_hasKey {d : Record} {k : String} {v : Value}
    (h : getVal d k = some v) : hasKey d k = true := by
  induction d with
  | nil => simp [getVal] at h
  | cons p rest ih =>
    obtain ⟨k0, v0⟩ := p
    by_cases hk : k0 = k
    · simp [hasKey, hk]
    · simp only [getVal, hk, if_false] at h
      simp [hasKey, hk, ih h]

theorem hasKey_false_getVal_none {d : Record} {k : String}
    (h : hasKey d k = false) : getVal d k = none := by
  induction d with
  | nil => rfl
  | cons p rest ih =>
    obtain ⟨k0, v0⟩ := p
    by_cases hk : k0 = k
    · simp [hasKey, hk] at h
    · simp only [hasKey, hk, if_false] at h
      simp [getVal, hk, ih h]

theorem getVal_popKey_ne {d : Record} {k a : String} (h : k ≠ a) :
    getVal (popKey d k) a = getVal d a := by
  induction d with
  | nil => rfl
  | cons p rest ih =>
    obtain ⟨k0, v0⟩ := p
    by_cases hk : k0 = k
    · subst hk
      simp [popKey, getVal, h, ih]
    · by_cases ha : k0 = a
      · subst ha
        simp [popKey, getVal, hk]
      · simp [popKey, getVal, hk, ha, ih]

theorem hasKey_popKey_self (d : Record) (k : String) :
    hasKey (popKey d k) k = false := by
  induction d with
  | nil => rfl
  | cons p rest ih =>
    obtain ⟨k0, v0⟩ := p
    by_cases hk : k0 = k
    · simp [popKey, hk, ih]
    · simp [popKey, hasKey, hk, ih]

theorem hasKey_popKey_ne {d : Record} {k a : String} (h : k ≠ a) :
    hasKey (popKey d k) a = hasKey d a := by
  induction d with
  | nil => rfl
  | cons p rest ih =>
    obtain ⟨k0, v0⟩ := p
    by_cases hk : k0 = k
    · subst hk
      simp [popKey, hasKey, h, ih]
    · by_cases ha : k0 = a
      · subst ha
        simp [popKey, hasKey, hk]
      · simp [popKey, hasKey, hk, ha, ih]

theorem popKey_append (d1 d2 : Record) (k : String) :
    popKey (d1 ++ d2) k = popKey d1 k ++ popKey d2 k := by
  induction d1 with
  | nil => rfl
  | cons p rest ih =>
    obtain ⟨k0, v0⟩ := p
    by_cases hk : k0 = k
    · simp [popKey, hk, ih]
    · simp [popKey, hk, ih]

theorem hasKey_append (d1 d2 : Record) (k : String) :
    hasKey (d1 ++ d2) k = (hasKey d1 k || hasKey d2 k) := by
  induction d1 with
  | nil => simp [hasKey]
  | cons p rest ih =>
    obtain ⟨k0, v0⟩ := p
    by_cases hk : k0 = k
    · simp [hasKey, hk]
    · simp [hasKey, hk, ih]

theorem getVal_append (d1 d2 : Record) (a : String) :
    getVal (d1 ++ d2) a = ((getVal d1 a).elim (getVal d2 a) some) := by
  induction d1 with
  | nil => rfl
  | cons p rest ih =>
    obtain ⟨k0, v0⟩ := p
    by_cases hk : k0 = a
    · simp [getVal, hk]
    · simp [getVal, hk, ih]

/-! Helper lemmas about the in-place-update map used by `setKey`. -/

theorem getVal_map_set {l : Record} {k a : String} (v : Value) (h : k ≠ a) :
    getVal (l.map (fun p => if p.1 = a then (a, v) else p)) k = getVal l k := by
  have h' : a ≠ k := Ne.symm h
  induction l with
  | nil => rfl
  | cons p rest ih =>
    obtain ⟨k0, v0⟩ := p
    by_cases ha : k0 = a
    · subst ha
      simp only [List.map_cons, if_pos rfl]
      simp [getVal, h', ih]
    · simp only [List.map_cons, if_neg ha]
      simp [getVal, ih]

theorem hasKey_map_set {l : Record} {k a : String} (v : Value) (h : k ≠ a) :
    hasKey (l.map (fun p => if p.1 = a then (a, v) else p)) k = hasKey l k := by
  have h' : a ≠ k := Ne.symm h
  induction l with
  | nil => rfl
  | cons p rest ih =>
    obtain ⟨k0, v0⟩ := p
    by_cases ha : k0 = a
    · subst ha
      simp only [List.map_cons, if_pos rfl]
      simp [hasKey, h', ih]
    · simp only [List.map_cons, if_neg ha]
      simp [hasKey, ih]

theorem getVal_map_set_self {l : Record} {k : String} (v : Value)
    (hl : hasKey l k = true) :
    getVal (l.map (fun p => if p.1 = k then (k, v) else p)) k = some v := by
  induction l with
  | nil => simp [hasKey] at hl
  | cons p rest ih =>
    obtain ⟨k0, v0⟩ := p
    by_cases hk : k0 = k
    · subst hk
      simp only [List.map_cons, if_pos rfl]
      simp [getVal]
    · simp only [hasKey, hk, if_false] at hl
      simp only [List.map_cons, if_neg hk]
      simp [getVal, hk, ih hl]

theorem hasKey_map_set_self {l : Record} {k : String} (v : Value)
    (hl : hasKey l k = true) :
    hasKey (l.map (fun p => if p.1 = k then (k, v) else p)) k = true := by
  induction l with
  | nil => simp [hasKey] at hl
  | cons p rest ih =>
    obtain ⟨k0, v0⟩ := p
    by_cases hk : k0 = k
    · subst hk
      simp only [List.map_cons, if_pos rfl]
      simp [hasKey]
    · simp only [hasKey, hk, if_false] at hl
      simp only [List.map_cons, if_neg hk]
      simp [hasKey, hk, ih hl]

theorem popKey_map_set {l : Record} {k k' : String} (v : Value) (h : k ≠ k') :
    popKey (l.map (fun p => if p.1 = k then (k, v) else p)) k' =
      (popKey l k').map (fun p => if p.1 = k then (k, v) else p) := by
  induction l with
  | nil => rfl
  | cons p rest ih =>
    obtain ⟨k0, v0⟩ := p
    by_cases hk : k0 = k
    · subst hk
      simp only [List.map_cons, if_pos rfl]
      simp [popKey, h, ih]
    · by_cases hk' : k0 = k'
      · subst hk'
        simp only [List.map_cons, if_neg hk]
        simp [popKey, hk, ih]
      · simp only [List.map_cons, if_neg hk]
        simp [popKey, hk, hk', ih]

theorem map_set_id {l : Record} {k : String} (v : Value)
    (hl : hasKey l k = false) :
    l.map (fun p => if p.1 = k then (k, v) else p) = l := by
  induction l with
  | nil => rfl
  | cons p rest ih =>
    obtain ⟨k0, v0⟩ := p
    by_cases hk : k0 = k
    · simp [hasKey, hk] at hl
    · simp only [hasKey, hk, if_false] at hl
      simp [hk, ih hl]

theorem map_set_map_set {l : Record} {k : String} (v1 v2 : Value) :
    (l.map (fun p => if p.1 = k then (k, v1) else p)).map
      (fun p => if p.1 = k then (k, v2) else p) =
    l.map (fun p => if p.1 = k then (k, v2) else p) := by
  induction l with
  | nil => rfl
  | cons p rest ih =>
    obtain ⟨k0, v0⟩ := p
    by_cases hk : k0 = k
    · subst hk
      simp only [List.map_cons, if_pos rfl]
      simp [ih]
    · simp only [List.map_cons, if_neg hk]
      simp [hk, ih]

/-! Lemmas about `setKey` itself. -/

theorem getVal_setKey_ne {d : Record} {k a : String} (v : Value) (h : k ≠ a) :
    getVal (setKey d k v) a = getVal d a := by
  unfold setKey
  cases hd : hasKey d k with
  | true =>
    rw [if_pos rfl]
    exact getVal_map_set v (fun he => h he.symm)
  | false =>
    rw [if_neg (by simp)]
    rw [getVal_append]
    cases hg : getVal d a <;> simp [getVal, h]

theorem hasKey_setKey_ne {d : Record} {k a : String} (v : Value) (h : k ≠ a) :
    hasKey (setKey d k v) a = hasKey d a := by
  unfold setKey
  cases hd : hasKey d k with
  | true =>
    rw [if_pos rfl]
    exact hasKey_map_set v (fun he => h he.symm)
  | false =>
    rw [if_neg (by simp)]
    rw [hasKey_append]
    simp [hasKey, h]

theorem getVal_setKey_self (d : Record) (k : String) (v : Value) :
    getVal (setKey d k v) k = some v := by
  unfold setKey
  cases hd : hasKey d k with
  | true =>
    rw [if_pos rfl]
    exact getVal_map_set_self v hd
  | false =>
    rw [if_neg (by simp)]
    rw [getVal_append, hasKey_false_getVal_none hd]
    simp [getVal]

theorem popKey_setKey_comm {d : Record} {k k' : String} (v : Value) (h : k ≠ k') :
    popKey (setKey d k v) k' = setKey (popKey d k') k v := by
  unfold setKey
  rw [hasKey_popKey_ne (fun he => h he.symm)]
  cases hd : hasKey d k with
  | true =>
    rw [if_pos rfl]
    exact popKey_map_set v h
  | false =>
    rw [if_neg (by simp)]
    rw [popKey_append]
    simp [popKey, h]

theorem setKey_setKey_same (d : Record) (k : String) (v1 v2 : Value) :
    setKey (setKey d k v1) k v2 = setKey d k v2 := by
  cases hd : hasKey d k with
  | true =>
    have h1 : setKey d k v1 = d.map (fun p => if p.1 = k then (k, v1) else p) := by
      unfold setKey; rw [hd, if_pos rfl]
    have h2 : setKey d k v2 = d.map (fun p => if p.1 = k then (k, v2) else p) := by
      unfold setKey; rw [hd, if_pos rfl]
    rw [h1, h2]
    unfold setKey
    rw [if_pos (hasKey_map_set_self v1 hd), map_set_map_set]
  | false =>
    have h1 : setKey d k v1 = d ++ [(k, v1)] := by
      unfold setKey; rw [hd, if_neg (by simp)]
    have h2 : setKey d k v2 = d ++ [(k, v2)] := by
      unfold setKey; rw [hd, if_neg (by simp)]
    have ha : hasKey (d ++ [(k, v1)]) k = true := by
      rw [hasKey_append]; simp [hasKey]
    rw [h1, h2]
    unfold setKey
    rw [if_pos ha, List.map_append, map_set_id v2 hd]
    simp [hasKey]

/-! ### Shape lemmas for the resolution phases -/

theorem acquire_body_cases {fs : FileSys} {data d1 : Record} {b1 : Lines}
    (h : acquire_body fs data = .ok (d1, b1)) :
    (hasKey data "source" = true ∧ d1 = popKey data "source" ∧
      ∃ path content, getVal data "source" = some (Value.str path) ∧
        fs path = some content ∧ b1 = splitlines content) ∨
    (hasKey data "source" = false ∧ d1 = data ∧
      ∃ t, getVal data "body" = some (Value.str t) ∧ b1 = splitNl t) := by
  unfold acquire_body at h
  by_cases hs : hasKey data "source"
  · rw [if_pos hs] at h
    left
    refine ⟨hs, ?_⟩
    split at h
    · rename_i path heq
      split at h
      · rename_i content hf
        injection h with h'
        injection h' with hd hb
        exact ⟨hd.symm, path, content, heq, hf, hb.symm⟩
      · exact absurd h (by simp)
    · exact absurd h (by simp)
  · rw [if_neg hs] at h
    right
    refine ⟨by simpa using hs, ?_⟩
    split at h
    · rename_i t heq
      injection h with h'
      injection h' with hd hb
      exact ⟨hd.symm, t, heq, hb.symm⟩
    · exact absurd h (by simp)
    · exact absurd h (by simp)

theorem apply_range_cases {data d2 : Record} {b b2 : Lines}
    (h : apply_range data b = .ok (d2, b2)) :
    (hasKey data "range" = true ∧ d2 = popKey data "range" ∧
      ∃ s e : Int, getVal data "range" = some (Value.intList [s, e]) ∧
        s ≤ e ∧ 1 ≤ s ∧
        b2 = (b.drop (s - 1).toNat).take (e - s + 1).toNat) ∨
    (hasKey data "range" = false ∧ d2 = data ∧ b2 = b) := by
  unfold apply_range at h
  by_cases hr : hasKey data "range"
  · rw [if_pos hr] at h
    left
    refine ⟨hr, ?_⟩
    split at h
    · rename_i r heq
      split at h
      · rename_i s e
        split at h
        · split at h
          · rename_i hse h1
            injection h with h'
            injection h' with hd hb
            exact ⟨hd.symm, s, e, heq, hse, h1, hb.symm⟩
          · exact absurd h (by simp)
        · exact absurd h (by simp)
      · exact absurd h (by simp)
    · exact absurd h (by simp)
  · rw [if_neg hr] at h
    injection h with h'
    injection h' with hd hb
    exact Or.inr ⟨by simpa using hr, hd.symm, hb.symm⟩

theorem process_body_data_shape {fs : FileSys} {data out : Record}
    (h : process_body_data fs data = .ok out) :
    ∃ d1 b1 d2 b2, acquire_body fs data = .ok (d1, b1) ∧
      apply_range d1 b1 = .ok (d2, b2) ∧
      ∃ ls, out =
        setKey (popKey (popKey d2 "trim_leading_blank_lines")
          "trim_trailing_blank_lines") "body" (Value.strList ls) := by
  unfold process_body_data at h
  cases ha : acquire_body fs data with
  | error e => rw [ha] at h; exact absurd h (by simp)
  | ok r1 =>
    obtain ⟨d1, b1⟩ := r1
    rw [ha] at h
    dsimp only at h
    cases hr : apply_range d1 b1 with
    | error e => rw [hr] at h; exact absurd h (by simp)
    | ok r2 =>
      obtain ⟨d2, b2⟩ := r2
      rw [hr] at h
      dsimp only [apply_trim_leading, apply_trim_trailing] at h
      injection h with h'
      exact ⟨d1, b1, d2, b2, rfl, hr, _, h'.symm⟩

theorem process_body_data_frame {fs : FileSys} {data out : Record}
    (h : process_body_data fs data = .ok out) {a : String}
    (hb : a ≠ "body") (hs : a ≠ "source") (hr : a ≠ "range")
    (h1 : a ≠ "trim_leading_blank_lines") (h2 : a ≠ "trim_trailing_blank_lines") :
    getVal out a = getVal data a := by
  obtain ⟨d1, b1, d2, b2, ha, hrng, ls, hout⟩ := process_body_data_shape h
  subst hout
  rw [getVal_setKey_ne _ (Ne.symm hb), getVal_popKey_ne (Ne.symm h2),
      getVal_popKey_ne (Ne.symm h1)]
  have e2 : getVal d2 a = getVal d1 a := by
    rcases apply_range_cases hrng with ⟨_, hd2, _⟩ | ⟨_, hd2, _⟩
    · subst hd2; exact getVal_popKey_ne (Ne.symm hr)
    · subst hd2; rfl
  have e1 : getVal d1 a = getVal data a := by
    rcases acquire_body_cases ha with ⟨_, hd1, _⟩ | ⟨_, hd1, _⟩
    · subst hd1; exact getVal_popKey_ne (Ne.symm hs)
    · subst hd1; rfl
  rw [e2, e1]

theorem process_body_data_resolved {fs : FileSys} {data out : Record}
    (h : process_body_data fs data = .ok out) :
    hasKey out "source" = false ∧ hasKey out "range" = false ∧
    hasKey out "trim_leading_blank_lines" = false ∧
    hasKey out "trim_trailing_blank_lines" = false ∧
    ∃ ls, getVal out "body" = some (Value.strList ls) := by
  obtain ⟨d1, b1, d2, b2, ha, hrng, ls, hout⟩ := process_body_data_shape h
  subst hout
  have hs1 : hasKey d1 "source" = false := by
    rcases acquire_body_cases ha with ⟨_, hd1, _⟩ | ⟨hns, hd1, _⟩
    · subst hd1; exact hasKey_popKey_self _ _
    · subst hd1; exact hns
  have hs2 : hasKey d2 "source" = false := by
    rcases apply_range_cases hrng with ⟨_, hd2, _⟩ | ⟨_, hd2, _⟩
    · subst hd2; rw [hasKey_popKey_ne (by decide)]; exact hs1
    · subst hd2; exact hs1
  have hr2 : hasKey d2 "range" = false := by
    rcases apply_range_cases hrng with ⟨_, hd2, _⟩ | ⟨hnr, hd2, _⟩
    · subst hd2; exact hasKey_popKey_self _ _
    · subst hd2; exact hnr
  refine ⟨?_, ?_, ?_, ?_, ls, ?_⟩
  · rw [hasKey_setKey_ne _ (by decide), hasKey_popKey_ne (by decide),
        hasKey_popKey_ne (by decide)]
    exact hs2
  · rw [hasKey_setKey_ne _ (by decide), hasKey_popKey_ne (by decide),
        hasKey_popKey_ne (by decide)]
    exact hr2
  · rw [hasKey_setKey_ne _ (by decide), hasKey_popKey_ne (by decide)]
    exact hasKey_popKey_self _ _
  · rw [hasKey_setKey_ne _ (by decide)]
    exact hasKey_popKey_self _ _
  · exact getVal_setKey_self _ _ _

/-! ### Lemmas about the two line-splitting functions -/

theorem splitNl_ne_nil (t : Text) : splitNl t ≠ [] := by
  cases t with
  | nil => simp [splitNl]
  | cons c cs =>
    by_cases hc : c = '\n'
    · simp [splitNl, hc]
    · simp only [splitNl, hc, if_false]
      cases splitNl cs <;> simp

theorem splitlines_cons_ne_cr {c : Char} (cs : Text) (h : c ≠ '\r') :
    splitlines (c :: cs) =
      if isLineBoundary c then [] :: splitlines cs
      else
        match splitlines cs with
        | [] => [[c]]
        | l :: ls => (c :: l) :: ls := by
  rw [splitlines.eq_def]
  split
  · simp_all
  · simp_all
  · rename_i c2 cs2 heq
    injection heq with e1 e2
    subst e1
    subst e2
    rfl

theorem splitlines_eq_splitNl (t : Text) :
    t ≠ [] → t.getLast? ≠ some '\n' →
    (∀ c ∈ t, isLineBoundary c = true → c = '\n') →
    splitlines t = splitNl t := by
  induction t with
  | nil => intro hne _ _; exact absurd rfl hne
  | cons c cs ih =>
    intro _ hlast hb
    have hcr : c ≠ '\r' := by
      intro he
      have hbc := hb c (List.mem_cons_self c cs) (by rw [he]; decide)
      rw [he] at hbc
      exact absurd hbc (by decide)
    rw [splitlines_cons_ne_cr cs hcr]
    by_cases hc : c = '\n'
    · subst hc
      cases cs with
      | nil => simp at hlast
      | cons c2 cs2 =>
        rw [List.getLast?_cons_cons] at hlast
        rw [if_pos (by decide)]
        have heq := ih (by simp) hlast
          (fun x hx => hb x (List.mem_cons_of_mem _ hx))
        simp [splitNl, heq]
    · have hnb : isLineBoundary c = false := by
        cases hob : isLineBoundary c
        · rfl
        · exact absurd (hb c (List.mem_cons_self c cs) hob) hc
      rw [if_neg (by simp [hnb])]
      cases cs with
      | nil => simp [splitNl, splitlines, hc]
      | cons c2 cs2 =>
        rw [List.getLast?_cons_cons] at hlast
        have heq := ih (by simp) hlast
          (fun x hx => hb x (List.mem_cons_of_mem _ hx))
        rw [heq]
        have hrhs : splitNl (c :: c2 :: cs2) =
            match splitNl (c2 :: cs2) with
            | [] => [[c]]
            | l :: ls => (c :: l) :: ls := by
          simp only [splitNl, hc, if_false]
        rw [hrhs]

/-! ### Changing the inline `body` attribute commutes with each phase -/

theorem acquire_body_setKey_body (fs : FileSys) (data : Record) (w : Value)
    (hs : hasKey data "source" = true) :
    acquire_body fs (setKey data "body" w) =
      (acquire_body fs data).map (fun r => (setKey r.1 "body" w, r.2)) := by
  unfold acquire_body
  rw [if_pos (by rw [hasKey_setKey_ne _ (by decide)]; exact hs), if_pos hs]
  rw [getVal_setKey_ne _ (by decide)]
  cases hg : getVal data "source" with
  | none => rfl
  | some v =>
    cases v with
    | str path =>
      dsimp only
      cases hf : fs path with
      | none => rfl
      | some content =>
        dsimp only [Except.map]
        rw [popKey_setKey_comm _ (by decide)]
    | bool b => rfl
    | int n => rfl
    | intList ns => rfl
    | strList ls => rfl

theorem apply_range_setKey_body (data : Record) (b : Lines) (w : Value) :
    apply_range (setKey data "body" w) b =
      (apply_range data b).map (fun r => (setKey r.1 "body" w, r.2)) := by
  unfold apply_range
  cases hk : hasKey data "range" with
  | true =>
    rw [if_pos (by rw [hasKey_setKey_ne _ (by decide)]; exact hk), if_pos rfl]
    rw [getVal_setKey_ne _ (by decide)]
    cases hg : getVal data "range" with
    | none => rfl
    | some v =>
      cases v with
      | intList r =>
        rcases r with _ | ⟨s, r1⟩
        · rfl
        · rcases r1 with _ | ⟨e, r2⟩
          · rfl
          · rcases r2 with _ | ⟨x, r3⟩
            · dsimp only
              by_cases hse : s ≤ e
              · rw [if_pos hse, if_pos hse]
                by_cases h1 : 1 ≤ s
                · rw [if_pos h1, if_pos h1]
                  dsimp only [Except.map]
                  rw [popKey_setKey_comm _ (by decide)]
                · rw [if_neg h1, if_neg h1]
                  rfl
              · rw [if_neg hse, if_neg hse]
                rfl
            · rfl
      | str s => rfl
      | bool b2 => rfl
      | int n => rfl
      | strList ls => rfl
  | false =>
    rw [if_neg (by rw [hasKey_setKey_ne _ (by decide)]; simp [hk]),
        if_neg (by simp)]
    rfl

theorem apply_trim_leading_setKey_body (data : Record) (b : Lines) (w : Value) :
    apply_trim_leading (setKey data "body" w) b =
      (setKey (apply_trim_leading data b).1 "body" w,
       (apply_trim_leading data b).2) := by
  unfold apply_trim_leading
  rw [getVal_setKey_ne _ (by decide), popKey_setKey_comm _ (by decide)]

theorem apply_trim_trailing_setKey_body (data : Record) (b : Lines) (w : Value) :
    apply_trim_trailing (setKey data "body" w) b =
      (setKey (apply_trim_trailing data b).1 "body" w,
       (apply_trim_trailing data b).2) := by
  unfold apply_trim_trailing
  rw [getVal_setKey_ne _ (by decide), popKey_setKey_comm _ (by decide)]

theorem process_body_data_setKey_body (fs : FileSys) (data : Record)
    (w : Value) (hs : hasKey data "source" = true) :
    process_body_data fs (setKey data "body" w) = process_body_data fs data := by
  unfold process_body_data
  rw [acquire_body_setKey_body fs data w hs]
  cases ha : acquire_body fs data with
  | error e => rfl
  | ok r1 =>
    obtain ⟨d1, b1⟩ := r1
    dsimp only [Except.map]
    rw [apply_range_setKey_body d1 b1 w]
    cases hr : apply_range d1 b1 with
    | error e => rfl
    | ok r2 =>
      obtain ⟨d2, b2⟩ := r2
      dsimp only [Except.map]
      rw [apply_trim_leading_setKey_body]
      rcases hl : apply_trim_leading d2 b2 with ⟨d3, b3⟩
      dsimp only
      rw [apply_trim_trailing_setKey_body]
      rcases ht : apply_trim_trailing d3 b3 with ⟨d4, b4⟩
      dsimp only
      rw [setKey_setKey_same]

/-! ### The claims -/

/-- Claim C1: for every record whose `range` attribute is a valid pair
`[s, e]` with `1 <= s <= e`, range cropping selects exactly the lines
`s..e`, 1-indexed inclusive (the zero-based half-open slice
`[s-1, e)`), and the cropped body has length `min e N - s + 1` when
`s <= N` and length `0` when `s > N`, for a body of `N` lines; an `e`
beyond `N` truncates silently rather than erroring. -/
theorem range_cropping_law (data : Record) (body : Lines) (s e : Int)
    (hr : getVal data "range" = some (Value.intList [s, e]))
    (h1 : 1 ≤ s) (hse : s ≤ e) :
    ∃ cropped : Lines,
      apply_range data body = .ok (popKey data "range", cropped) ∧
      (∀ i : Nat, i < cropped.length →
        cropped[i]? = body[s.toNat - 1 + i]?) ∧
      cropped.length =
        (if s.toNat ≤ body.length then min e.toNat body.length - s.toNat + 1
         else 0) := by
  refine ⟨(body.drop (s - 1).toNat).take (e - s + 1).toNat, ?_, ?_, ?_⟩
  · unfold apply_range
    rw [if_pos (getVal_some_hasKey hr), hr]
    dsimp only
    rw [if_pos hse, if_pos h1]
  · intro i hi
    have hi' : i < (e - s + 1).toNat := by
      simp only [List.length_take, List.length_drop] at hi
      omega
    rw [List.getElem?_take_of_lt hi', List.getElem?_drop]
    have he : (s - 1).toNat + i = s.toNat - 1 + i := by omega
    rw [he]
  · rw [List.length_take, List.length_drop]
    split
    · omega
    · omega

theorem range_cropping_law_witness :
    ∃ cropped : Lines,
      apply_range [("range", Value.intList [2, 3])] [['a'], ['b'], ['c'], ['d']] =
        .ok (popKey [("range", Value.intList [2, 3])] "range", cropped) ∧
      (∀ i : Nat, i < cropped.length →
        cropped[i]? = [['a'], ['b'], ['c'], ['d']][(2 : Int).toNat - 1 + i]?) ∧
      cropped.length =
        (if (2 : Int).toNat ≤ ([['a'], ['b'], ['c'], ['d']] : Lines).length then
          min (3 : Int).toNat ([['a'], ['b'], ['c'], ['d']] : Lines).length -
            (2 : Int).toNat + 1
         else 0) :=
  range_cropping_law [("range", Value.intList [2, 3])] [['a'], ['b'], ['c'], ['d']]
    2 3 (by decide) (by decide) (by decide)

/-- Claim C2: a record with body text "a LF LF b LF" and
`trim_trailing_blank_lines = true` resolves to the body lines
`["a", "", "b"]`: the trailing empty line from the final LF is removed,
the internal blank line is kept. -/
theorem scenario_a_trailing_trim :
    process_body_data (fun _ => none)
      [("body", Value.str ['a', '\n', '\n', 'b', '\n']),
       ("trim_trailing_blank_lines", Value.bool true)] =
    .ok [("body", Value.strList [['a'], [], ['b']])] := rfl

/-- Claim C4: a present but invalid `range` attribute (not a
two-element sequence, or start > end, or start < 1) makes body
resolution fail with the `ConfigError` of the spec. -/
theorem invalid_range_config_error (fs : FileSys) (data : Record) (t : Text)
    (r : List Int)
    (hns : hasKey data "source" = false)
    (hb : getVal data "body" = some (Value.str t))
    (hr : getVal data "range" = some (Value.intList r))
    (hbad : ∀ s e : Int, r = [s, e] → ¬(1 ≤ s ∧ s ≤ e)) :
    process_body_data fs data = .error .configError := by
  have ha : acquire_body fs data = .ok (data, splitNl t) := by
    unfold acquire_body
    rw [if_neg (by simp [hns]), hb]
  have hrng : apply_range data (splitNl t) = .error .configError := by
    unfold apply_range
    rw [if_pos (getVal_some_hasKey hr), hr]
    dsimp only
    rcases r with _ | ⟨s, r1⟩
    · rfl
    · rcases r1 with _ | ⟨e, r2⟩
      · rfl
      · rcases r2 with _ | ⟨x, r3⟩
        · have hne := hbad s e rfl
          dsimp only
          by_cases hse : s ≤ e
          · rw [if_pos hse, if_neg (by tauto)]
          · rw [if_neg hse]
        · rfl
  unfold process_body_data
  rw [ha]
  dsimp only
  rw [hrng]

theorem invalid_range_config_error_witness :
    process_body_data (fun _ => none)
      [("body", Value.str ['x']), ("range", Value.intList [3, 2])] =
    .error .configError :=
  invalid_range_config_error _ _ ['x'] [3, 2] (by decide) (by decide) (by decide)
    (by intro s e h; simp at h; omega)

/-- Claim C10: a record with neither a `source` attribute nor a `body`
attribute fails body resolution (with the Python `KeyError` on
`data['body']`); no empty default body is supplied. -/
theorem missing_body_fails (fs : FileSys) (data : Record)
    (hns : hasKey data "source" = false)
    (hnb : hasKey data "body" = false) :
    process_body_data fs data = .error Err.keyError := by
  have ha : acquire_body fs data = .error .keyError := by
    unfold acquire_body
    rw [if_neg (by simp [hns]), hasKey_false_getVal_none hnb]
  unfold process_body_data
  rw [ha]

theorem missing_body_fails_witness :
    process_body_data (fun _ => none) [("scope", Value.str ['c'])] =
      .error Err.keyError :=
  missing_body_fails _ _ (by decide) (by decide)

/-- Claim C3 counterexample: for the file content / body text "a LF",
reading from a source file yields the single line `["a"]`
(`str.splitlines` drops the trailing boundary) while the inline `body`
attribute yields `["a", ""]` (`split` at LF keeps the empty trailing
piece), so the two acquisition routes are not equivalent for every
text. -/
theorem source_inline_split_cex :
    (acquire_body (fun _ => some ['a', '\n'])
        [("source", Value.str ['f'])]).toOption.map Prod.snd ≠
    (acquire_body (fun _ => some ['a', '\n'])
        [("body", Value.str ['a', '\n'])]).toOption.map Prod.snd := by
  decide

/-- Claim C3 (amended): body acquisition from an external source file
and from an inline `body` attribute agree on every text that is
nonempty, does not end in LF, and whose only line-boundary characters
are LF; in general they differ, a trailing LF giving the inline route
one extra trailing empty line. -/
theorem source_inline_split_agree (fs : FileSys) (path t : Text)
    (hfs : fs path = some t) (hne : t ≠ [])
    (hlast : t.getLast? ≠ some '\n')
    (hb : ∀ c ∈ t, isLineBoundary c = true → c = '\n') :
    (acquire_body fs [("source", Value.str path)]).toOption.map Prod.snd =
    (acquire_body fs [("body", Value.str t)]).toOption.map Prod.snd := by
  have h1 : acquire_body fs [("source", Value.str path)] =
      .ok ([], splitlines t) := by
    have hd : acquire_body fs [("source", Value.str path)] =
        (match fs path with
         | some content =>
           .ok (popKey [("source", Value.str path)] "source",
             splitlines content)
         | none => .error .sourceReadError) := rfl
    rw [hd, hfs]
    rfl
  have h2 : acquire_body fs [("body", Value.str t)] =
      .ok ([("body", Value.str t)], splitNl t) := rfl
  rw [h1, h2]
  dsimp only [Except.toOption, Option.map]
  rw [splitlines_eq_splitNl t hne hlast hb]

theorem source_inline_split_agree_witness :
    (acquire_body (fun _ => some ['a', '\n', 'b'])
        [("source", Value.str ['f'])]).toOption.map Prod.snd =
    (acquire_body (fun _ => some ['a', '\n', 'b'])
        [("body", Value.str ['a', '\n', 'b'])]).toOption.map Prod.snd :=
  source_inline_split_agree _ ['f'] ['a', '\n', 'b'] rfl (by decide)
    (by decide) (by decide)

/-- Claim C7 (the parser is an external primitive, modelled from the
spec): when two snippet declarations carry the same name, the parsed
collection holds exactly one entry under that name, whose value is the
later declaration. -/
theorem duplicate_name_last_wins (n : String) (v1 v2 : Record) :
    parseDecls [(n, v1), (n, v2)] = [(n, v2)] := by
  simp [parseDecls, insertDecl]

/-- Claim C8: delivering output to a destination that already exists
with `overwrite = false` fails with the `DestinationExistsError` of the
spec, writes nothing to standard output, and leaves the destination
file's prior contents unchanged. -/
theorem destination_exists_no_write (fsys : FileSys) (text prior p : Text)
    (h : fsys p = some prior) :
    (output_result fsys text (some p) false).err =
        some OutErr.destinationExists ∧
    (output_result fsys text (some p) false).fsys p = some prior ∧
    (output_result fsys text (some p) false).stdout = [] := by
  unfold output_result
  dsimp only
  rw [if_pos ⟨by rw [h]; rfl, rfl⟩]
  exact ⟨rfl, h, rfl⟩

theorem destination_exists_no_write_witness :
    (output_result (fun q => if q = ['d'] then some ['o'] else none)
        ['n'] (some ['d']) false).err = some OutErr.destinationExists ∧
    (output_result (fun q => if q = ['d'] then some ['o'] else none)
        ['n'] (some ['d']) false).fsys ['d'] = some ['o'] ∧
    (output_result (fun q => if q = ['d'] then some ['o'] else none)
        ['n'] (some ['d']) false).stdout = [] :=
  destination_exists_no_write _ ['n'] ['o'] ['d'] rfl

/-- Claim C5: when both `source` and `body` are present, the source
file's content determines the resolved body and the inline body text is
ignored (changing it does not change the result at all); and every
successfully resolved record has `source`, `range`, and the two trim
attributes absent, its `body` being a plain finite list of lines. -/
theorem source_precedence_and_resolved (fs : FileSys) (data : Record) :
    (∀ out, process_body_data fs data = .ok out →
      hasKey out "source" = false ∧ hasKey out "range" = false ∧
      hasKey out "trim_leading_blank_lines" = false ∧
      hasKey out "trim_trailing_blank_lines" = false ∧
      ∃ ls, getVal out "body" = some (Value.strList ls)) ∧
    (hasKey data "source" = true → ∀ t2 : Text,
      process_body_data fs (setKey data "body" (Value.str t2)) =
        process_body_data fs data) :=
  ⟨fun _ h => process_body_data_resolved h,
   fun hs t2 => process_body_data_setKey_body fs data (Value.str t2) hs⟩

theorem source_precedence_and_resolved_witness :
    (hasKey [("body", Value.strList [['x'], ['y']])] "source" = false ∧
     hasKey [("body", Value.strList [['x'], ['y']])] "range" = false ∧
     hasKey [("body", Value.strList [['x'], ['y']])]
       "trim_leading_blank_lines" = false ∧
     hasKey [("body", Value.strList [['x'], ['y']])]
       "trim_trailing_blank_lines" = false ∧
     ∃ ls, getVal [("body", Value.strList [['x'], ['y']])] "body" =
       some (Value.strList ls)) ∧
    process_body_data (fun _ => some ['x', '\n', 'y'])
        (setKey [("source", Value.str ['f']), ("body", Value.str ['z'])]
          "body" (Value.str ['q'])) =
      process_body_data (fun _ => some ['x', '\n', 'y'])
        [("source", Value.str ['f']), ("body", Value.str ['z'])] :=
  ⟨(source_precedence_and_resolved (fun _ => some ['x', '\n', 'y'])
      [("source", Value.str ['f']), ("body", Value.str ['z'])]).1 _ rfl,
   (source_precedence_and_resolved (fun _ => some ['x', '\n', 'y'])
      [("source", Value.str ['f']), ("body", Value.str ['z'])]).2 rfl ['q']⟩

/-- Claim C6: conversion preserves everything except the body and the
extension attributes: the converted collection has the same snippet
names in the same order, and in every record the value of every
attribute other than `body`, `source`, `range` and the two trim flags
(unrecognized attributes included) is unchanged. -/
theorem passthrough_invariant (fs : FileSys)
    (coll out : List (String × Record))
    (h : convert_records fs coll = .ok out) :
    out.map Prod.fst = coll.map Prod.fst ∧
    List.Forall₂ (fun p q =>
      ∀ a : String, a ≠ "body" → a ≠ "source" → a ≠ "range" →
        a ≠ "trim_leading_blank_lines" → a ≠ "trim_trailing_blank_lines" →
        getVal q.2 a = getVal p.2 a) coll out := by
  revert h
  induction coll generalizing out with
  | nil =>
    intro h
    unfold convert_records at h
    injection h with h2
    subst h2
    exact ⟨rfl, List.Forall₂.nil⟩
  | cons p rest ih =>
    intro h
    obtain ⟨k, v⟩ := p
    unfold convert_records at h
    cases hp : process_body_data fs v with
    | error e => rw [hp] at h; exact absurd h (by simp)
    | ok v2 =>
      rw [hp] at h
      dsimp only at h
      cases hc : convert_records fs rest with
      | error e => rw [hc] at h; exact absurd h (by simp)
      | ok rest2 =>
        rw [hc] at h
        dsimp only at h
        injection h with h2
        subst h2
        obtain ⟨hmap, hfa⟩ := ih rest2 hc
        refine ⟨by simp [hmap], ?_⟩
        exact List.Forall₂.cons
          (fun a hb hs hr h1 h2 => process_body_data_frame hp hb hs hr h1 h2)
          hfa

theorem passthrough_invariant_witness :
    [("nm", [("scope", Value.str ['c']), ("body", Value.strList [['x']]),
      ("extra", Value.int 7)])].map Prod.fst =
      [("nm", [("scope", Value.str ['c']), ("body", Value.str ['x']),
        ("extra", Value.int 7)])].map Prod.fst ∧
    List.Forall₂ (fun p q =>
      ∀ a : String, a ≠ "body" → a ≠ "source" → a ≠ "range" →
        a ≠ "trim_leading_blank_lines" → a ≠ "trim_trailing_blank_lines" →
        getVal q.2 a = getVal p.2 a)
      [("nm", [("scope", Value.str ['c']), ("body", Value.str ['x']),
        ("extra", Value.int 7)])]
      [("nm", [("scope", Value.str ['c']), ("body", Value.strList [['x']]),
        ("extra", Value.int 7)])] :=
  passthrough_invariant (fun _ => none) _ _ rfl

/-- Claim C9: leading (resp. trailing) blank trimming is applied exactly
when the corresponding trim attribute's value is the boolean `true`; an
absent attribute defaults to no trimming, and any other value
(including truthy non-boolean values) leaves the body untrimmed while
resolution still succeeds without an error. -/
theorem trim_flag_strict_true (fs : FileSys) (data : Record) (t : Text)
    (hns : hasKey data "source" = false)
    (hb : getVal data "body" = some (Value.str t))
    (hnr : hasKey data "range" = false) :
    ∃ out, process_body_data fs data = .ok out ∧
      getVal out "body" = some (Value.strList (
        if getVal data "trim_trailing_blank_lines" = some (Value.bool true)
        then
          ((if getVal data "trim_leading_blank_lines" =
              some (Value.bool true)
            then (splitNl t).dropWhile (fun l => l.isEmpty)
            else splitNl t).reverse.dropWhile (fun l => l.isEmpty)).reverse
        else
          (if getVal data "trim_leading_blank_lines" =
              some (Value.bool true)
           then (splitNl t).dropWhile (fun l => l.isEmpty)
           else splitNl t))) := by
  have ha : acquire_body fs data = .ok (data, splitNl t) := by
    unfold acquire_body
    rw [if_neg (by simp [hns]), hb]
  have hr : apply_range data (splitNl t) = .ok (data, splitNl t) := by
    unfold apply_range
    rw [if_neg (by simp [hnr])]
  unfold process_body_data
  rw [ha]
  dsimp only
  rw [hr]
  dsimp only [apply_trim_leading, apply_trim_trailing]
  refine ⟨_, rfl, ?_⟩
  rw [getVal_setKey_self]
  rw [getVal_popKey_ne
    (by decide : "trim_leading_blank_lines" ≠ "trim_trailing_blank_lines")]

theorem trim_flag_strict_true_witness :
    ∃ out, process_body_data (fun _ => none)
        [("body", Value.str ['\n', 'a']),
         ("trim_leading_blank_lines", Value.int 1)] = .ok out ∧
      getVal out "body" = some (Value.strList [[], ['a']]) := by
  obtain ⟨out, h1, h2⟩ := trim_flag_strict_true (fun _ => none)
    [("body", Value.str ['\n', 'a']),
     ("trim_leading_blank_lines", Value.int 1)] ['\n', 'a']
    (by decide) (by decide) (by decide)
  refine ⟨out, h1, ?_⟩
  rw [h2]
  rfl

end TomlSnippet
